import Mathlib

/-!
Verification of the stitchbot repository: a shallow embedding of the
windowed DAG store (`src/dag.rs`), the orchestrator decision wiring and
healing monitor loop (`src/main.rs`), and the configuration record
(`src/config.rs`), together with proofs settling the frozen claims.

Machine integers (`u64`, `usize`) are modelled as `Nat`; `u64::saturating_sub`
is `Nat` subtraction, `u64::abs_diff` is modelled explicitly. `petgraph`'s
`Graph` is modelled as a node list plus an edge list of index pairs;
`Graph::remove_node` is modelled with petgraph's documented swap-remove
semantics: the removed node's incident edges are deleted, the node with the
last index is moved into the removed slot, and edge endpoints naming the old
last index are renumbered. `HashMap<String, NodeIndex>` is an association
list; `VecDeque<String>` is a list with its front at the head.
-/

/-- Model of `BlockInfo` in `src/dag.rs`: hash, blue score, declared parent
hashes, timestamp. -/
structure BlockInfo where
  hash : String
  blue_score : Nat
  parents : List String
  timestamp : Nat
deriving DecidableEq, Repr

instance : Inhabited BlockInfo := ⟨⟨"", 0, [], 0⟩⟩

/-- Model of the fields of `kaspa_consensus_core::block::Block` that
`add_block` reads: `block.hash()`, `header.blue_score`,
`header.direct_parents`, `header.timestamp`. -/
structure Block where
  hash : String
  blue_score : Nat
  direct_parents : List String
  timestamp : Nat
deriving DecidableEq, Repr

/-- Model of `petgraph::Graph<BlockInfo, (), Directed>`: nodes indexed by
position, edges as (source index, target index) pairs in insertion order. -/
structure DagGraph where
  nodes : List BlockInfo
  edges : List (Nat × Nat)
deriving DecidableEq, Repr

/-- Node weight access `graph[i]` (out-of-range reads return the default;
the source never reads out of range). -/
def nodeAt (g : DagGraph) (i : Nat) : BlockInfo := g.nodes.getD i default

/-- Model of `petgraph::Graph::remove_node` (swap-remove): if `k` is in
range, all edges incident to `k` are removed, the node at the last index
moves into slot `k`, and surviving edge endpoints equal to the old last
index are renumbered to `k`. Out-of-range `k` is a no-op. -/
def removeNode (g : DagGraph) (k : Nat) : DagGraph :=
  if k < g.nodes.length then
    let last := g.nodes.length - 1
    { nodes := (g.nodes.set k (g.nodes.getD last default)).dropLast,
      edges := (g.edges.filter (fun e => ¬ (e.1 = k ∨ e.2 = k))).map
        (fun e => (if e.1 = last then k else e.1, if e.2 = last then k else e.2)) }
  else g

/-- Lookup in the association-list model of `HashMap<String, NodeIndex>`. -/
def mapGet (m : List (String × Nat)) (h : String) : Option Nat :=
  match m with
  | [] => none
  | (k, v) :: t => if k = h then some v else mapGet t h

/-- Key removal in the association-list model of the hash index. -/
def mapRemove (m : List (String × Nat)) (h : String) : List (String × Nat) :=
  m.filter (fun kv => kv.1 ≠ h)

/-- Model of `RollingDag` in `src/dag.rs`: graph, identifier→node index,
FIFO insertion-order queue (front = oldest), capacity. -/
structure RollingDag where
  graph : DagGraph
  idx : List (String × Nat)
  order : List String
  capacity : Nat
deriving DecidableEq, Repr

/-- Model of `RollingDag::new(capacity)`. -/
def RollingDag.new (capacity : Nat) : RollingDag :=
  { graph := ⟨[], []⟩, idx := [], order := [], capacity := capacity }

/-- The eviction prelude of `add_block` (dag.rs lines 52-60): if
`order.len() >= capacity`, pop the front hash, remove the graph node the
index currently maps it to, and delete its index entry. -/
def evictIfFull (d : RollingDag) : RollingDag :=
  if d.capacity ≤ d.order.length then
    match d.order with
    | [] => d
    | oldHash :: rest =>
      let g' := match mapGet d.idx oldHash with
        | some node => removeNode d.graph node
        | none => d.graph
      { graph := g', idx := mapRemove d.idx oldHash, order := rest,
        capacity := d.capacity }
  else d

/-- The edge-creation loop of `add_block` (dag.rs lines 67-71): for each
declared parent hash, look it up in the (already updated) index and, when
present, append an edge parent→new-node. -/
def addParentEdges (idx2 : List (String × Nat)) (node : Nat)
    (ps : List String) (g : DagGraph) : DagGraph :=
  ps.foldl (fun g p =>
    match mapGet idx2 p with
    | some pn => { g with edges := g.edges ++ [(pn, node)] }
    | none => g) g

/-- Model of `RollingDag::add_block` (dag.rs lines 39-73). Returns the new
state and the boolean result (`false` iff the hash was already present). -/
def addBlock (d : RollingDag) (b : Block) : RollingDag × Bool :=
  if (mapGet d.idx b.hash).isSome then (d, false)
  else
    let info : BlockInfo := ⟨b.hash, b.blue_score, b.direct_parents, b.timestamp⟩
    let d1 := evictIfFull d
    let node := d1.graph.nodes.length
    let g2 : DagGraph := ⟨d1.graph.nodes ++ [info], d1.graph.edges⟩
    let idx2 := (b.hash, node) :: d1.idx
    let g3 := addParentEdges idx2 node info.parents g2
    ({ graph := g3, idx := idx2, order := d1.order ++ [b.hash],
       capacity := d.capacity }, true)

/-- Runs a sequence of `add_block` calls, discarding the boolean results. -/
def runAdd (d : RollingDag) (bs : List Block) : RollingDag :=
  bs.foldl (fun d b => (addBlock d b).1) d

/-- Outgoing neighbors of node `i`: targets of edges whose source is `i`
(`neighbors_directed(node, Outgoing)`; claims below are invariant under the
iteration order, so edge-insertion order is used). -/
def childrenOf (g : DagGraph) (i : Nat) : List Nat :=
  (g.edges.filter (fun e => e.1 = i)).map (fun e => e.2)

/-- Model of `u64::MAX`, the initial value of the delta fold in
`find_fracture`. -/
def U64MAX : Nat := 2 ^ 64 - 1

/-- Model of `u64::abs_diff`. -/
def absDiff (a b : Nat) : Nat := if b ≤ a then a - b else b - a

/-- The per-candidate delta loop of `find_fracture` (dag.rs lines 88-92):
minimum over the node's children of the absolute blue-score difference,
starting from `u64::MAX`. -/
def minChildDelta (g : DagGraph) (i : Nat) : Nat :=
  (childrenOf g i).foldl
    (fun dl c => min dl (absDiff (nodeAt g i).blue_score (nodeAt g c).blue_score))
    U64MAX

/-- The candidate-collection loop of `find_fracture` (dag.rs lines 83-96):
for each node index, skip it if it has fewer than two outgoing neighbors or
its minimum child delta is below `min_delta`; otherwise record
(index, betweenness, delta). The betweenness-centrality scores computed by
`petgraph::algo::betweenness_centrality` (external library code) are
abstracted as a score assignment `bc`; every theorem below quantifies over
`bc`, so nothing depends on the concrete centrality values. -/
def candidatesList (g : DagGraph) (bc : Nat → ℚ) (min_delta : Nat) :
    List (Nat × ℚ × Nat) :=
  (List.range g.nodes.length).filterMap (fun i =>
    if (childrenOf g i).length < 2 then none
    else if minChildDelta g i < min_delta then none
    else some (i, bc i, minChildDelta g i))

/-- Total comparison of centrality scores, modelling
`f64::partial_cmp(..).unwrap_or(Equal)` (scores are never NaN). -/
def qCompare (x y : ℚ) : Ordering :=
  if x < y then .lt else if y < x then .gt else .eq

/-- The comparator of `find_fracture`'s sort (dag.rs lines 99-103):
betweenness descending, then delta ascending. -/
def cmpPair (a b : Nat × ℚ × Nat) : Ordering :=
  (qCompare b.2.1 a.2.1).then (compare a.2.2 b.2.2)

/-- Boolean "less or equal" for the stable sort: the comparator does not
order `a` after `b`. -/
def cmpLe (a b : Nat × ℚ × Nat) : Bool :=
  match cmpPair a b with
  | .gt => false
  | _ => true

/-- Stable insertion of an element into a sorted list: placed before the
first element it compares less-or-equal to. -/
def sortInsert {α : Type} (le : α → α → Bool) (x : α) : List α → List α
  | [] => [x]
  | y :: ys => if le x y then x :: y :: ys else y :: sortInsert le x ys

/-- Stable sort (insertion sort). For a total, transitive `le`, the stably
sorted permutation of a list is unique, so this has the same result as
Rust's stable `sort_by` in `find_fracture`. -/
def stableSort {α : Type} (le : α → α → Bool) : List α → List α
  | [] => []
  | x :: xs => sortInsert le x (stableSort le xs)

/-- Model of `RollingDag::find_fracture` (dag.rs lines 78-107): collect
candidates, sort them stably by the comparator, take the first, and return
its index together with the full current list of its outgoing neighbors. -/
def findFracture (g : DagGraph) (bc : Nat → ℚ) (min_delta : Nat) :
    Option (Nat × List Nat) :=
  match (stableSort cmpLe (candidatesList g bc min_delta)).head? with
  | none => none
  | some best => some (best.1, childrenOf g best.1)

/-- Model of `Config` in `src/config.rs`. -/
structure Config where
  rpc_url : String
  p2p_port : Nat
  p2p_bootstrap_peers : List String
  adaptive : Bool
  base_min_delta : Nat
  base_rate_limit : Nat
  base_reward_sompi : Nat
  max_reward_sompi : Nat
  min_rate_limit : Nat
  dag_window : Nat
deriving DecidableEq, Repr

/-- Model of `cfg.adaptive.then(|| AdaptiveEngine::new(cfg.clone()))`
(main.rs line 39). The adaptive engine lives in `src/adaptive.rs`, which is
not part of the available sources, so its type `E` and constructor are kept
abstract; only the option wiring is from `main.rs`. -/
def mkEngineOpt {E : Type} (mk : Config → E) (cfg : Config) : Option E :=
  if cfg.adaptive then some (mk cfg) else none

/-- Model of main.rs line 78:
`adaptive_engine.as_ref().map(|e| e.sus(blue_delta, bps)).unwrap_or(1.0)`.
The engine's `sus` method is abstract (its source is unavailable). -/
def mainSus {E : Type} (sus : E → Nat → ℚ → ℚ) (eng : Option E)
    (delta : Nat) (bps : ℚ) : ℚ :=
  (eng.map (fun e => sus e delta bps)).getD 1

/-- Model of main.rs line 79: `adaptive_engine.as_ref()
.map(|e| e.should_stitch(blue_delta, bps, now)).unwrap_or(true)`. -/
def mainShouldStitch {E : Type} (should : E → Nat → ℚ → Int → Bool)
    (eng : Option E) (delta : Nat) (bps : ℚ) (now : Int) : Bool :=
  (eng.map (fun e => should e delta bps now)).getD true

/-- Model of main.rs line 80:
`adaptive_engine.as_ref().map(|e| e.reward(sus)).unwrap_or(cfg.base_reward_sompi)`. -/
def mainReward {E : Type} (reward : E → ℚ → Nat) (eng : Option E)
    (cfg : Config) (s : ℚ) : Nat :=
  (eng.map (fun e => reward e s)).getD cfg.base_reward_sompi

/-- Model of main.rs line 70: `rolling_dag.find_fracture(200)`. The
configuration is in scope at the call site but the threshold passed is the
literal `200`. -/
def orchestratorFractureCall (cfg : Config) (d : RollingDag)
    (bc : Nat → ℚ) : Option (Nat × List Nat) :=
  findFracture d.graph bc 200

/-- Model of main.rs lines 73-76: the blue delta dispatched to the
controller is the maximum over the returned tips of
`tip.blue_score.saturating_sub(weak.blue_score)`, defaulting to 0. -/
def mainBlueDelta (g : DagGraph) (weakIdx : Nat) (tips : List Nat) : Nat :=
  ((tips.map (fun i =>
    (nodeAt g i).blue_score - (nodeAt g weakIdx).blue_score)).max?).getD 0

/-- Model of the controller dispatch on a detected fracture (main.rs lines
73-80): one `blue_delta` is computed and that same value is fed to `sus`,
`should_stitch` and (through `sus`) `reward`. -/
def dispatchOnFracture {E : Type} (susF : E → Nat → ℚ → ℚ)
    (shouldF : E → Nat → ℚ → Int → Bool) (rewardF : E → ℚ → Nat)
    (eng : Option E) (cfg : Config) (g : DagGraph) (weakIdx : Nat)
    (tips : List Nat) (bps : ℚ) (now : Int) : ℚ × Bool × Nat :=
  let delta := mainBlueDelta g weakIdx tips
  let s := mainSus susF eng delta bps
  (s, mainShouldStitch shouldF eng delta bps now, mainReward rewardF eng cfg s)

/-- Model of `HEAL_CHECK_INTERVAL_SECS` (main.rs line 14). -/
def HEAL_CHECK_INTERVAL_SECS : Nat := 2

/-- The fields of a fetched block that the healing task reads: its direct
parents, and the result of `get_miner_address` on it (main.rs lines
126-130: first transaction's first output's address, when resolvable). -/
structure HealBlock where
  direct_parents : List String
  minerAddr : Option String
deriving DecidableEq, Repr

/-- Outcome of `send_reward` (main.rs lines 133-137). -/
inductive SendOutcome where
  | ok (txid : String)
  | err
deriving DecidableEq, Repr

/-- The external collaborators a healing task interacts with: the RPC fetch
of the target block at each attempt, and reward submission. -/
structure HealEnv where
  fetch : Nat → Option HealBlock
  send : String → Nat → SendOutcome

/-- Observable outcome of a healing task: attempts executed, reward
payments issued (`send_reward` calls), warnings logged, success
(`HEALED`) log lines. -/
structure HealResult where
  attempts : Nat
  payments : List (String × Nat)
  warns : Nat
  healedLogs : List String
deriving DecidableEq, Repr

/-- One step bookkeeping: the loop body ran one more attempt. -/
def bumpAttempt (r : HealResult) : HealResult :=
  { r with attempts := r.attempts + 1 }

/-- Model of the healing task loop body (main.rs lines 97-111), by
remaining fuel and current attempt number: sleep (not modelled), fetch the
block; on fetch failure continue; if the tip-set is a subset of the fetched
parents and a miner address resolves, call `send_reward` and return (info
log on success, warning on failure); otherwise continue to the next
attempt. -/
def healGo (env : HealEnv) (tipSet : List String) (reward : Nat) :
    Nat → Nat → HealResult
  | 0, _ => ⟨0, [], 0, []⟩
  | fuel + 1, i =>
    match env.fetch i with
    | none => bumpAttempt (healGo env tipSet reward fuel (i + 1))
    | some b =>
      if tipSet.all (fun t => b.direct_parents.contains t) then
        match b.minerAddr with
        | some addr =>
          match env.send addr reward with
          | .ok txid => ⟨1, [(addr, reward)], 0, [txid]⟩
          | .err => ⟨1, [(addr, reward)], 1, []⟩
        | none => bumpAttempt (healGo env tipSet reward fuel (i + 1))
      else bumpAttempt (healGo env tipSet reward fuel (i + 1))

/-- Model of the spawned healing task (main.rs lines 96-112):
`for _ in 0..30 { ... }` over the loop body. -/
def healMonitor (env : HealEnv) (tipSet : List String) (reward : Nat) :
    HealResult :=
  healGo env tipSet reward 30 0

/-- Attempt `i` is "payable": the fetch succeeds, the expected tip-set is a
subset of the fetched parents, and a miner address resolves. -/
def goodAt (env : HealEnv) (tipSet : List String) (i : Nat) : Bool :=
  match env.fetch i with
  | none => false
  | some b => tipSet.all (fun t => b.direct_parents.contains t) && b.minerAddr.isSome

/-! ### Concrete blocks, stores, configurations and healing environments
used to instantiate the theorems below -/

/-- Shorthand for a block with a given hash, blue score and parent list. -/
def blk (h : String) (s : Nat) (ps : List String) : Block := ⟨h, s, ps, 0⟩

/-- Capacity-3 store holding A(100, no parents), B(150, parent A),
C(400, parent A): the end-to-end scenario of the spec. -/
def dagABC : RollingDag :=
  runAdd (RollingDag.new 3) [blk "A" 100 [], blk "B" 150 ["A"], blk "C" 400 ["A"]]

/-- Capacity-3 store holding W(400, no parents), X(150, parent W),
Y(100, parent W): the weak node is heavier than both of its tips. -/
def dagWXY : RollingDag :=
  runAdd (RollingDag.new 3) [blk "W" 400 [], blk "X" 150 ["W"], blk "Y" 100 ["W"]]

/-- Capacity-2 store holding a two-block chain P ← Q: no node has two
children. -/
def dagPQ : RollingDag :=
  runAdd (RollingDag.new 2) [blk "P" 1 [], blk "Q" 2 ["P"]]

/-- A configuration with the adaptive flag disabled and
base_min_delta = 1000. -/
def cfg0 : Config := ⟨"", 0, [], false, 1000, 60, 7, 70, 5, 10⟩

/-- A configuration with base_min_delta = 300, different from the hardcoded
detection threshold 200. -/
def cfg300 : Config := ⟨"", 0, [], true, 300, 60, 7, 70, 5, 10⟩

/-- Healing environment in which every fetch returns a block whose parents
contain the expected tip but whose miner address cannot be resolved. -/
def env8 : HealEnv := ⟨fun _ => some ⟨["t8"], none⟩, fun _ _ => .ok "tx8"⟩

/-- Healing environment like `env8` (address resolution always fails), with
a failing payment collaborator. -/
def env9 : HealEnv := ⟨fun _ => some ⟨["t9"], none⟩, fun _ _ => .err⟩

/-- Healing environment in which the fetch succeeds with a payable block
only at attempt index 4 (the fifth attempt) and payment succeeds. -/
def envW : HealEnv :=
  ⟨fun i => if i = 4 then some ⟨["tw"], some "mw"⟩ else none, fun _ _ => .ok "txw"⟩

/-- Healing environment in which the fetch succeeds with a payable block
only at attempt index 2 and payment fails. -/
def env9w : HealEnv :=
  ⟨fun i => if i = 2 then some ⟨["t9w"], some "m9"⟩ else none, fun _ _ => .err⟩

/-- Formalization of the claimed edge invariant: an edge a→b exists iff
both endpoints are resident and the child block declares the parent block's
hash in its parent list. -/
def EdgeClaimC2 (d : RollingDag) : Prop :=
  (∀ e ∈ d.graph.edges, e.1 < d.graph.nodes.length ∧ e.2 < d.graph.nodes.length ∧
     (nodeAt d.graph e.1).hash ∈ (nodeAt d.graph e.2).parents) ∧
  (∀ a, a < d.graph.nodes.length → ∀ b, b < d.graph.nodes.length →
     (nodeAt d.graph a).hash ∈ (nodeAt d.graph b).parents → (a, b) ∈ d.graph.edges)

instance decEdgeClaimC2 (d : RollingDag) : Decidable (EdgeClaimC2 d) := by
  unfold EdgeClaimC2
  infer_instance

/-! ### Helper lemmas about the association-list index and the graph -/

theorem mapGet_mem {m : List (String × Nat)} {h : String} {v : Nat}
    (hv : mapGet m h = some v) : (h, v) ∈ m := by
  induction m with
  | nil => simp [mapGet] at hv
  | cons kv t ih =>
    obtain ⟨k, w⟩ := kv
    by_cases hk : k = h
    · subst hk
      simp [mapGet] at hv
      simp [hv]
    · simp [mapGet, hk] at hv
      exact List.mem_cons_of_mem _ (ih hv)

theorem mapGet_cons_ne {m : List (String × Nat)} {k h : String} {v : Nat}
    (hk : k ≠ h) : mapGet ((k, v) :: m) h = mapGet m h := by
  simp [mapGet, hk]

theorem mapGet_cons_eq {m : List (String × Nat)} {h : String} {v : Nat} :
    mapGet ((h, v) :: m) h = some v := by
  simp [mapGet]

theorem mapGet_mapRemove_ne {m : List (String × Nat)} {k h : String}
    (hk : k ≠ h) : mapGet (mapRemove m k) h = mapGet m h := by
  induction m with
  | nil => rfl
  | cons kv t ih =>
    obtain ⟨k', w⟩ := kv
    by_cases hk' : k' = k
    · have h1 : mapRemove ((k', w) :: t) k = mapRemove t k := by
        simp [mapRemove, hk']
      have h2 : k' ≠ h := hk' ▸ hk
      rw [h1, ih, mapGet_cons_ne h2]
    · have h1 : mapRemove ((k', w) :: t) k = (k', w) :: mapRemove t k := by
        simp [mapRemove, hk']
      rw [h1]
      by_cases hh : k' = h
      · subst hh
        rw [mapGet_cons_eq, mapGet_cons_eq]
      · rw [mapGet_cons_ne hh, mapGet_cons_ne hh, ih]

theorem mem_mapRemove {m : List (String × Nat)} {k : String}
    {kv : String × Nat} (hm : kv ∈ mapRemove m k) : kv ∈ m :=
  List.mem_of_mem_filter hm

theorem addParentEdges_nodes (idx2 : List (String × Nat)) (node : Nat)
    (ps : List String) (g : DagGraph) :
    (addParentEdges idx2 node ps g).nodes = g.nodes := by
  induction ps generalizing g with
  | nil => rfl
  | cons p t ih =>
    show (addParentEdges idx2 node t _).nodes = g.nodes
    cases hp : mapGet idx2 p with
    | none => simpa [addParentEdges, hp] using ih g
    | some pn => simpa [addParentEdges, hp] using ih { g with edges := g.edges ++ [(pn, node)] }

theorem addParentEdges_edges (idx2 : List (String × Nat)) (node : Nat)
    (ps : List String) (g : DagGraph) :
    (addParentEdges idx2 node ps g).edges =
      g.edges ++ ps.filterMap (fun p => (mapGet idx2 p).map (fun pn => (pn, node))) := by
  induction ps generalizing g with
  | nil => simp [addParentEdges]
  | cons p t ih =>
    cases hp : mapGet idx2 p with
    | none => simpa [addParentEdges, hp] using ih g
    | some pn =>
      have := ih { g with edges := g.edges ++ [(pn, node)] }
      simpa [addParentEdges, hp] using this

theorem removeNode_length {g : DagGraph} {k : Nat}
    (hk : k < g.nodes.length) :
    (removeNode g k).nodes.length = g.nodes.length - 1 := by
  simp [removeNode, hk]

theorem removeNode_edges_wf {g : DagGraph} {k : Nat}
    (hk : k < g.nodes.length)
    (hwf : ∀ e ∈ g.edges, e.1 < g.nodes.length ∧ e.2 < g.nodes.length) :
    ∀ e ∈ (removeNode g k).edges,
      e.1 < g.nodes.length - 1 ∧ e.2 < g.nodes.length - 1 := by
  intro e he
  simp only [removeNode, hk, if_true] at he
  obtain ⟨⟨a, b⟩, hab, habe⟩ := List.mem_map.mp he
  have hmem := List.mem_of_mem_filter hab
  have hne := List.of_mem_filter hab
  simp at hne
  obtain ⟨ha, hb⟩ := hwf _ hmem
  subst habe
  constructor
  · by_cases h1 : a = g.nodes.length - 1
    · simp only [h1, if_true]
      omega
    · simp only [h1, if_false]
      omega
  · by_cases h2 : b = g.nodes.length - 1
    · simp only [h2, if_true]
      omega
    · simp only [h2, if_false]
      omega

/-! ### The reachable-state invariant of the rolling store -/

/-- Invariant of every `RollingDag` state reachable by `add_block` calls:
graph size matches the FIFO queue, the size is bounded by
`max capacity 1`, index values are in range, every queued hash is in the
index, the queue has no duplicates, and all edge endpoints are in range. -/
def GoodDag (d : RollingDag) : Prop :=
  d.graph.nodes.length = d.order.length ∧
  d.order.length ≤ max d.capacity 1 ∧
  (∀ kv ∈ d.idx, kv.2 < d.graph.nodes.length) ∧
  (∀ h ∈ d.order, (mapGet d.idx h).isSome = true) ∧
  d.order.Nodup ∧
  (∀ e ∈ d.graph.edges, e.1 < d.graph.nodes.length ∧ e.2 < d.graph.nodes.length)

theorem goodDag_new (c : Nat) : GoodDag (RollingDag.new c) := by
  refine ⟨rfl, by simp [RollingDag.new], ?_, ?_, ?_, ?_⟩ <;>
    simp [RollingDag.new]

theorem evictIfFull_capacity (d : RollingDag) :
    (evictIfFull d).capacity = d.capacity := by
  unfold evictIfFull
  split
  · cases d.order <;> rfl
  · rfl

/-- All properties of the post-eviction intermediate state that the
`add_block` preservation proof needs. -/
theorem evictIfFull_spec (d : RollingDag) (hg : GoodDag d) :
    (evictIfFull d).graph.nodes.length = (evictIfFull d).order.length ∧
    (evictIfFull d).order.length + 1 ≤ max d.capacity 1 ∧
    (∀ kv ∈ (evictIfFull d).idx, kv.2 ≤ (evictIfFull d).graph.nodes.length) ∧
    (∀ h ∈ (evictIfFull d).order, (mapGet (evictIfFull d).idx h).isSome = true) ∧
    (evictIfFull d).order.Nodup ∧
    (∀ e ∈ (evictIfFull d).graph.edges,
      e.1 < (evictIfFull d).graph.nodes.length ∧
      e.2 < (evictIfFull d).graph.nodes.length) ∧
    (∀ h, h ∈ (evictIfFull d).order → h ∈ d.order) := by
  obtain ⟨g, idx, order, cap⟩ := d
  obtain ⟨hlen, hbound, hidx, hsome, hnodup, hwf⟩ := hg
  simp only at hlen hbound hidx hsome hnodup hwf
  by_cases hc : cap ≤ order.length
  · cases order with
    | nil =>
      have he : evictIfFull ⟨g, idx, [], cap⟩ = ⟨g, idx, [], cap⟩ := by
        simp [evictIfFull, hc]
      rw [he]
      exact ⟨hlen, by simp, fun kv hkv => le_of_lt (hidx kv hkv), hsome,
        hnodup, hwf, fun h hh => hh⟩
    | cons oldHash rest =>
      have hs := hsome oldHash (List.mem_cons_self _ _)
      obtain ⟨v, hv⟩ := Option.isSome_iff_exists.mp hs
      have hvlt : v < g.nodes.length := hidx (oldHash, v) (mapGet_mem hv)
      have he : evictIfFull ⟨g, idx, oldHash :: rest, cap⟩ =
          ⟨removeNode g v, mapRemove idx oldHash, rest, cap⟩ := by
        have hc' : cap ≤ rest.length + 1 := by simpa using hc
        simp [evictIfFull, hc', hv]
      have hrl : (removeNode g v).nodes.length = g.nodes.length - 1 :=
        removeNode_length hvlt
      have hlen' : g.nodes.length = rest.length + 1 := by simpa using hlen
      have hndp : rest.Nodup := hnodup.of_cons
      have hnin : oldHash ∉ rest := (List.nodup_cons.mp hnodup).1
      rw [he]
      refine ⟨?_, ?_, ?_, ?_, hndp, ?_, ?_⟩
      · show (removeNode g v).nodes.length = rest.length
        omega
      · show rest.length + 1 ≤ max cap 1
        simpa using hbound
      · intro kv hkv
        have := hidx kv (mem_mapRemove hkv)
        show kv.2 ≤ (removeNode g v).nodes.length
        omega
      · intro h hh
        have hne : oldHash ≠ h := fun heq => hnin (heq ▸ hh)
        show (mapGet (mapRemove idx oldHash) h).isSome = true
        rw [mapGet_mapRemove_ne hne]
        exact hsome h (List.mem_cons_of_mem _ hh)
      · intro e hee
        have h2 := removeNode_edges_wf hvlt hwf e hee
        show e.1 < (removeNode g v).nodes.length ∧ e.2 < (removeNode g v).nodes.length
        omega
      · intro h hh
        exact List.mem_cons_of_mem _ hh
  · have he : evictIfFull ⟨g, idx, order, cap⟩ = ⟨g, idx, order, cap⟩ := by
      simp only [evictIfFull]
      rw [if_neg hc]
    rw [he]
    refine ⟨hlen, ?_, fun kv hkv => le_of_lt (hidx kv hkv), hsome, hnodup, hwf,
      fun h hh => hh⟩
    show order.length + 1 ≤ max cap 1
    omega

theorem addBlock_capacity (d : RollingDag) (b : Block) :
    (addBlock d b).1.capacity = d.capacity := by
  unfold addBlock
  split
  · rfl
  · rfl

/-- Preservation of the reachable-state invariant by `add_block`. -/
theorem goodDag_addBlock (d : RollingDag) (b : Block) (hg : GoodDag d) :
    GoodDag (addBlock d b).1 := by
  by_cases hdup : (mapGet d.idx b.hash).isSome = true
  · have : addBlock d b = (d, false) := by unfold addBlock; simp [hdup]
    rw [this]
    exact hg
  · have hnone : mapGet d.idx b.hash = none := by
      cases h : mapGet d.idx b.hash with
      | none => rfl
      | some v => rw [h] at hdup; simp at hdup
    have hnotin : b.hash ∉ d.order := by
      intro hmem
      exact hdup (hg.2.2.2.1 b.hash hmem)
    obtain ⟨e1, e2, e3, e4, e5, e6, e7⟩ := evictIfFull_spec d hg
    have hnotin1 : b.hash ∉ (evictIfFull d).order := fun hm => hnotin (e7 _ hm)
    set d1 := evictIfFull d with hd1
    set n1 := d1.graph.nodes.length with hn1
    set info : BlockInfo := ⟨b.hash, b.blue_score, b.direct_parents, b.timestamp⟩
      with hinfo
    set idx2 := (b.hash, n1) :: d1.idx with hidx2
    set g3 := addParentEdges idx2 n1 info.parents ⟨d1.graph.nodes ++ [info], d1.graph.edges⟩
      with hg3
    have hstep : addBlock d b =
        ({ graph := g3, idx := idx2, order := d1.order ++ [b.hash],
           capacity := d.capacity }, true) := by
      unfold addBlock
      simp only [hnone, Option.isSome_none, Bool.false_eq_true, if_false]
    rw [hstep]
    have hg3nodes : g3.nodes = d1.graph.nodes ++ [info] := by
      rw [hg3, addParentEdges_nodes]
    have hg3len : g3.nodes.length = n1 + 1 := by
      rw [hg3nodes]; simp [hn1]
    have hg3edges : g3.edges = d1.graph.edges ++
        info.parents.filterMap (fun p => (mapGet idx2 p).map (fun pn => (pn, n1))) := by
      rw [hg3, addParentEdges_edges]
    refine ⟨?_, ?_, ?_, ?_, ?_, ?_⟩
    · show g3.nodes.length = (d1.order ++ [b.hash]).length
      rw [hg3len]; simp [e1]
    · show (d1.order ++ [b.hash]).length ≤ max d.capacity 1
      simpa using e2
    · intro kv hkv
      show kv.2 < g3.nodes.length
      rw [hg3len]
      rcases List.mem_cons.mp hkv with h | h
      · rw [h]; omega
      · have := e3 kv h; omega
    · intro h hh
      rcases List.mem_append.mp hh with h1 | h1
      · have hne : b.hash ≠ h := fun heq => hnotin1 (heq ▸ h1)
        show (mapGet idx2 h).isSome = true
        rw [hidx2, mapGet_cons_ne hne]
        exact e4 h h1
      · have hhb : h = b.hash := by simpa using h1
        show (mapGet idx2 h).isSome = true
        rw [hhb, hidx2, mapGet_cons_eq]
        rfl
    · show (d1.order ++ [b.hash]).Nodup
      refine List.Nodup.append e5 (List.nodup_singleton _) ?_
      intro x hx hx'
      have : x = b.hash := by simpa using hx'
      exact hnotin1 (this ▸ hx)
    · intro e hee
      show e.1 < g3.nodes.length ∧ e.2 < g3.nodes.length
      rw [hg3len]
      rw [hg3edges] at hee
      rcases List.mem_append.mp hee with h1 | h1
      · have := e6 e h1; omega
      · obtain ⟨p, _, hp2⟩ := List.mem_filterMap.mp h1
        cases hpg : mapGet idx2 p with
        | none => rw [hpg] at hp2; simp at hp2
        | some pn =>
          rw [hpg] at hp2
          simp at hp2
          have hpn : pn = n1 ∨ (p, pn) ∈ d1.idx := by
            rcases List.mem_cons.mp (mapGet_mem hpg) with h | h
            · left; exact (Prod.mk.injEq _ _ _ _ ▸ h).2
            · right; exact h
          have hpnle : pn ≤ n1 := by
            rcases hpn with h | h
            · omega
            · exact e3 (p, pn) h
          rw [← hp2]
          simp
          omega

/-- Preservation of the invariant by any sequence of `add_block` calls. -/
theorem goodDag_runAdd (d : RollingDag) (bs : List Block) (hg : GoodDag d) :
    GoodDag (runAdd d bs) := by
  induction bs generalizing d with
  | nil => exact hg
  | cons b t ih => exact ih _ (goodDag_addBlock d b hg)

theorem runAdd_capacity (d : RollingDag) (bs : List Block) :
    (runAdd d bs).capacity = d.capacity := by
  induction bs generalizing d with
  | nil => rfl
  | cons b t ih => rw [runAdd, List.foldl_cons, ← runAdd, ih, addBlock_capacity]

/-! ### Helper lemmas about the fracture query -/

theorem cmpLe_iff (a b : Nat × ℚ × Nat) :
    cmpLe a b = true ↔ b.2.1 < a.2.1 ∨ (b.2.1 = a.2.1 ∧ a.2.2 ≤ b.2.2) := by
  unfold cmpLe cmpPair qCompare
  rcases lt_trichotomy b.2.1 a.2.1 with h | h | h
  · simp [h, not_lt.mpr (le_of_lt h), Ordering.then]
  · have h1 : ¬ b.2.1 < a.2.1 := by rw [h]; exact lt_irrefl _
    have h2 : ¬ a.2.1 < b.2.1 := by rw [h]; exact lt_irrefl _
    simp only [h1, h2, if_false, Ordering.then]
    cases hcmp : compare a.2.2 b.2.2 with
    | lt =>
      have := Nat.compare_eq_lt.mp hcmp
      simp [h, hcmp]
      omega
    | eq =>
      have := Nat.compare_eq_eq.mp hcmp
      simp [h, hcmp]
      omega
    | gt =>
      have := Nat.compare_eq_gt.mp hcmp
      simp [h, hcmp]
      omega
  · have h1 : ¬ b.2.1 < a.2.1 := not_lt.mpr (le_of_lt h)
    have h2 : b.2.1 ≠ a.2.1 := ne_of_gt h
    simp [h1, h, Ordering.then, h2]

theorem cmpLe_total (a b : Nat × ℚ × Nat) :
    cmpLe a b = true ∨ cmpLe b a = true := by
  rw [cmpLe_iff, cmpLe_iff]
  rcases lt_trichotomy b.2.1 a.2.1 with h | h | h
  · exact Or.inl (Or.inl h)
  · rcases Nat.le_total a.2.2 b.2.2 with h2 | h2
    · exact Or.inl (Or.inr ⟨h, h2⟩)
    · exact Or.inr (Or.inr ⟨h.symm, h2⟩)
  · exact Or.inr (Or.inl h)

theorem cmpLe_trans {a b c : Nat × ℚ × Nat} (h1 : cmpLe a b = true)
    (h2 : cmpLe b c = true) : cmpLe a c = true := by
  rw [cmpLe_iff] at h1 h2 ⊢
  rcases h1 with h1 | ⟨h1, h1'⟩
  · rcases h2 with h2 | ⟨h2, h2'⟩
    · exact Or.inl (lt_trans h2 h1)
    · exact Or.inl (h2 ▸ h1)
  · rcases h2 with h2 | ⟨h2, h2'⟩
    · exact Or.inl (h1 ▸ h2)
    · exact Or.inr ⟨h2.trans h1, le_trans h1' h2'⟩

theorem mem_sortInsert {α : Type} (le : α → α → Bool) (x : α) (l : List α)
    (a : α) : a ∈ sortInsert le x l ↔ a = x ∨ a ∈ l := by
  induction l with
  | nil => simp [sortInsert]
  | cons y ys ih =>
    rw [sortInsert]
    by_cases h : le x y = true
    · rw [if_pos h]
      simp [List.mem_cons]
    · rw [if_neg h]
      simp only [List.mem_cons, ih]
      tauto

theorem sortInsert_pairwise {α : Type} (le : α → α → Bool)
    (htrans : ∀ a b c, le a b = true → le b c = true → le a c = true)
    (htot : ∀ a b, le a b = true ∨ le b a = true) (x : α) (l : List α)
    (hl : l.Pairwise (fun a b => le a b = true)) :
    (sortInsert le x l).Pairwise (fun a b => le a b = true) := by
  induction l with
  | nil => simp [sortInsert]
  | cons y ys ih =>
    rcases List.pairwise_cons.mp hl with ⟨hy, hys⟩
    by_cases h : le x y = true
    · rw [sortInsert, if_pos h]
      refine List.pairwise_cons.mpr ⟨?_, hl⟩
      intro a ha
      rcases List.mem_cons.mp ha with rfl | ha
      · exact h
      · exact htrans _ _ _ h (hy a ha)
    · rw [sortInsert, if_neg h]
      refine List.pairwise_cons.mpr ⟨?_, ih hys⟩
      intro a ha
      rcases (mem_sortInsert le x ys a).mp ha with rfl | ha
      · rcases htot a y with h' | h'
        · exact absurd h' h
        · exact h'
      · exact hy a ha

theorem mem_stableSort {α : Type} (le : α → α → Bool) (l : List α) (a : α) :
    a ∈ stableSort le l ↔ a ∈ l := by
  induction l with
  | nil => simp [stableSort]
  | cons x xs ih =>
    rw [stableSort, mem_sortInsert, ih, List.mem_cons]

theorem stableSort_pairwise {α : Type} (le : α → α → Bool)
    (htrans : ∀ a b c, le a b = true → le b c = true → le a c = true)
    (htot : ∀ a b, le a b = true ∨ le b a = true) (l : List α) :
    (stableSort le l).Pairwise (fun a b => le a b = true) := by
  induction l with
  | nil => simp [stableSort]
  | cons x xs ih => exact sortInsert_pairwise le htrans htot x _ ih

/-- The head of the stably sorted candidate list is minimal for the
comparator among all candidates. -/
theorem stableSort_head_min {l : List (Nat × ℚ × Nat)} {x : Nat × ℚ × Nat}
    {xs : List (Nat × ℚ × Nat)} (h : stableSort cmpLe l = x :: xs) :
    ∀ a ∈ l, a = x ∨ cmpLe x a = true := by
  intro a ha
  have hmem : a ∈ x :: xs := by
    rw [← h, mem_stableSort]
    exact ha
  rcases List.mem_cons.mp hmem with rfl | hmem
  · exact Or.inl rfl
  · have hp := stableSort_pairwise cmpLe (fun a b c => cmpLe_trans) cmpLe_total l
    rw [h] at hp
    exact Or.inr ((List.pairwise_cons.mp hp).1 a hmem)

theorem mem_candidatesList {g : DagGraph} {bc : Nat → ℚ} {md : Nat}
    {i : Nat} {q : ℚ} {dl : Nat} :
    (i, q, dl) ∈ candidatesList g bc md ↔
      i < g.nodes.length ∧ 2 ≤ (childrenOf g i).length ∧
      md ≤ minChildDelta g i ∧ q = bc i ∧ dl = minChildDelta g i := by
  unfold candidatesList
  rw [List.mem_filterMap]
  constructor
  · rintro ⟨j, hj, hjeq⟩
    by_cases h2 : (childrenOf g j).length < 2
    · rw [if_pos h2] at hjeq
      exact absurd hjeq (by simp)
    · rw [if_neg h2] at hjeq
      by_cases h3 : minChildDelta g j < md
      · rw [if_pos h3] at hjeq
        exact absurd hjeq (by simp)
      · rw [if_neg h3] at hjeq
        obtain ⟨rfl, rfl, rfl⟩ : j = i ∧ bc j = q ∧ minChildDelta g j = dl := by
          have := Option.some.inj hjeq
          exact ⟨congrArg Prod.fst this, congrArg (fun p => p.2.1) this,
            congrArg (fun p => p.2.2) this⟩
        exact ⟨List.mem_range.mp hj, not_lt.mp h2, not_lt.mp h3, rfl, rfl⟩
  · rintro ⟨hi, h2, h3, rfl, rfl⟩
    exact ⟨i, List.mem_range.mpr hi,
      by rw [if_neg (not_lt.mpr h2), if_neg (not_lt.mpr h3)]⟩

theorem findFracture_eq_none_of_no_candidate {g : DagGraph} {bc : Nat → ℚ}
    {md : Nat} (h : candidatesList g bc md = []) :
    findFracture g bc md = none := by
  unfold findFracture
  rw [h]
  rfl

/-! ### Helper lemmas about the healing loop -/

theorem healGo_step_not_good (env : HealEnv) (ts : List String) (reward : Nat)
    (fuel i : Nat) (h : goodAt env ts i = false) :
    healGo env ts reward (fuel + 1) i =
      bumpAttempt (healGo env ts reward fuel (i + 1)) := by
  cases hf : env.fetch i with
  | none => simp only [healGo, hf]
  | some b =>
    have h' : (ts.all (fun t => b.direct_parents.contains t) && b.minerAddr.isSome) = false := by
      rw [goodAt, hf] at h
      exact h
    simp only [healGo, hf]
    by_cases hs : ts.all (fun t => b.direct_parents.contains t) = true
    · have hm : b.minerAddr = none := by
        cases hm : b.minerAddr with
        | none => rfl
        | some a =>
          rw [hs, hm] at h'
          simp at h'
      rw [if_pos hs, hm]
    · rw [if_neg hs]

theorem healGo_step_good (env : HealEnv) (ts : List String) (reward : Nat)
    (fuel i : Nat) (b : HealBlock) (addr : String)
    (hf : env.fetch i = some b)
    (hs : ts.all (fun t => b.direct_parents.contains t) = true)
    (hm : b.minerAddr = some addr) :
    healGo env ts reward (fuel + 1) i =
      match env.send addr reward with
      | .ok txid => ⟨1, [(addr, reward)], 0, [txid]⟩
      | .err => ⟨1, [(addr, reward)], 1, []⟩ := by
  simp only [healGo, hf]
  rw [if_pos hs, hm]

theorem healGo_attempts_le (env : HealEnv) (ts : List String) (reward : Nat) :
    ∀ fuel i, (healGo env ts reward fuel i).attempts ≤ fuel := by
  intro fuel
  induction fuel with
  | zero => intro i; rw [healGo]
  | succ n ih =>
    intro i
    by_cases hg : goodAt env ts i = false
    · rw [healGo_step_not_good env ts reward n i hg]
      have := ih (i + 1)
      simp [bumpAttempt]
      omega
    · have hg' : goodAt env ts i = true := by
        cases h : goodAt env ts i with
        | false => exact absurd h hg
        | true => rfl
      rw [goodAt] at hg'
      cases hf : env.fetch i with
      | none => rw [hf] at hg'; simp at hg'
      | some b =>
        rw [hf] at hg'
        obtain ⟨hs, hm⟩ := Bool.and_eq_true_iff.mp hg'
        obtain ⟨addr, haddr⟩ := Option.isSome_iff_exists.mp hm
        rw [healGo_step_good env ts reward n i b addr hf hs haddr]
        cases env.send addr reward <;> simp

theorem healGo_payments_le (env : HealEnv) (ts : List String) (reward : Nat) :
    ∀ fuel i, (healGo env ts reward fuel i).payments.length ≤ 1 := by
  intro fuel
  induction fuel with
  | zero => intro i; rw [healGo]; exact Nat.zero_le 1
  | succ n ih =>
    intro i
    by_cases hg : goodAt env ts i = false
    · rw [healGo_step_not_good env ts reward n i hg]
      simpa [bumpAttempt] using ih (i + 1)
    · have hg' : goodAt env ts i = true := by
        cases h : goodAt env ts i with
        | false => exact absurd h hg
        | true => rfl
      rw [goodAt] at hg'
      cases hf : env.fetch i with
      | none => rw [hf] at hg'; simp at hg'
      | some b =>
        rw [hf] at hg'
        obtain ⟨hs, hm⟩ := Bool.and_eq_true_iff.mp hg'
        obtain ⟨addr, haddr⟩ := Option.isSome_iff_exists.mp hm
        rw [healGo_step_good env ts reward n i b addr hf hs haddr]
        cases env.send addr reward <;> simp

theorem healGo_no_good (env : HealEnv) (ts : List String) (reward : Nat) :
    ∀ fuel i, (∀ j, i ≤ j → j < i + fuel → goodAt env ts j = false) →
      healGo env ts reward fuel i = ⟨fuel, [], 0, []⟩ := by
  intro fuel
  induction fuel with
  | zero => intro i _; rw [healGo]
  | succ n ih =>
    intro i h
    rw [healGo_step_not_good env ts reward n i (h i (le_refl i) (by omega))]
    rw [ih (i + 1) (fun j hj1 hj2 => h j (by omega) (by omega))]
    rfl

theorem healGo_first_good_ok (env : HealEnv) (ts : List String) (reward : Nat)
    (k : Nat) (b : HealBlock) (addr txid : String)
    (hf : env.fetch k = some b)
    (hs : ts.all (fun t => b.direct_parents.contains t) = true)
    (hm : b.minerAddr = some addr)
    (hsend : env.send addr reward = .ok txid) :
    ∀ fuel i, i ≤ k → k < i + fuel →
      (∀ j, i ≤ j → j < k → goodAt env ts j = false) →
      healGo env ts reward fuel i = ⟨k - i + 1, [(addr, reward)], 0, [txid]⟩ := by
  intro fuel
  induction fuel with
  | zero => intro i h1 h2 _; omega
  | succ n ih =>
    intro i h1 h2 hprev
    by_cases hik : i = k
    · subst hik
      rw [healGo_step_good env ts reward n i b addr hf hs hm, hsend]
      simp
    · rw [healGo_step_not_good env ts reward n i (hprev i (le_refl i) (by omega))]
      rw [ih (i + 1) (by omega) (by omega) (fun j hj1 hj2 => hprev j (by omega) hj2)]
      have : k - i + 1 = (k - (i + 1) + 1) + 1 := by omega
      rw [this]
      rfl

theorem healGo_first_good_err (env : HealEnv) (ts : List String) (reward : Nat)
    (k : Nat) (b : HealBlock) (addr : String)
    (hf : env.fetch k = some b)
    (hs : ts.all (fun t => b.direct_parents.contains t) = true)
    (hm : b.minerAddr = some addr)
    (hsend : env.send addr reward = .err) :
    ∀ fuel i, i ≤ k → k < i + fuel →
      (∀ j, i ≤ j → j < k → goodAt env ts j = false) →
      healGo env ts reward fuel i = ⟨k - i + 1, [(addr, reward)], 1, []⟩ := by
  intro fuel
  induction fuel with
  | zero => intro i h1 h2 _; omega
  | succ n ih =>
    intro i h1 h2 hprev
    by_cases hik : i = k
    · subst hik
      rw [healGo_step_good env ts reward n i b addr hf hs hm, hsend]
      simp
    · rw [healGo_step_not_good env ts reward n i (hprev i (le_refl i) (by omega))]
      rw [ih (i + 1) (by omega) (by omega) (fun j hj1 hj2 => hprev j (by omega) hj2)]
      have : k - i + 1 = (k - (i + 1) + 1) + 1 := by omega
      rw [this]
      rfl

theorem max?_getD_zero : ∀ (l : List Nat), (∀ x ∈ l, x = 0) → l.max?.getD 0 = 0 := by
  intro l
  induction l with
  | nil => intro _; rfl
  | cons a t ih =>
    intro h
    rw [List.max?_cons]
    have ha : a = 0 := h a (List.mem_cons_self _ _)
    cases ht : t.max? with
    | none => simp [ht, ha]
    | some m =>
      have hm : m = 0 := by
        have := ih (fun x hx => h x (List.mem_cons_of_mem _ hx))
        rw [ht] at this
        simpa using this
      simp [ht, ha, hm]

/-! ### Claim theorems -/

/-- Claim C1, counterexample: with capacity 0 a single `add_block` leaves
one node in the store, so the node count exceeds the configured capacity —
the claimed bound fails in the C = 0 edge case (the eviction branch pops
from an empty queue and removes nothing, then inserts). -/
theorem claim_C1_counterexample :
    (runAdd (RollingDag.new 0) [blk "A" 0 []]).graph.nodes.length = 1 ∧
    ¬ ((runAdd (RollingDag.new 0) [blk "A" 0 []]).graph.nodes.length ≤
        (RollingDag.new 0).capacity) := by
  decide

/-- Claim C1, amended: for every sequence of `add_block` calls on a store
of capacity C, the node count never exceeds `max C 1`; in particular for
every C ≥ 1 it never exceeds C (only the C = 0 edge case deviates, where
the count can reach 1). -/
theorem claim_C1_amended (C : Nat) (bs : List Block) :
    (runAdd (RollingDag.new C) bs).graph.nodes.length ≤ max C 1 ∧
    (1 ≤ C → (runAdd (RollingDag.new C) bs).graph.nodes.length ≤ C) := by
  have hg := goodDag_runAdd (RollingDag.new C) bs (goodDag_new C)
  have hcap : (runAdd (RollingDag.new C) bs).capacity = C :=
    runAdd_capacity (RollingDag.new C) bs
  have hlen := hg.1
  have hbound := hg.2.1
  rw [hcap] at hbound
  constructor
  · omega
  · intro hC
    have : max C 1 = C := max_eq_left hC
    omega

/-- Claim C1, witness: the amended bound applied at capacity 2 with three
insertions. -/
theorem claim_C1_witness :
    1 ≤ 2 ∧
    (runAdd (RollingDag.new 2) [blk "A" 0 [], blk "B" 0 [], blk "C" 0 []]).graph.nodes.length ≤ 2 :=
  ⟨by decide,
    (claim_C1_amended 2 [blk "A" 0 [], blk "B" 0 [], blk "C" 0 []]).2 (by decide)⟩

/-- Claim C2, counterexample: the claimed edge invariant fails in two
reachable states. First, inserting A, B, then C (parent B) into a
capacity-2 store evicts A with petgraph's swap-removal, which moves B to
the freed index while the identifier→node index still maps B to its old
index; the new node C is inserted at that index, so the parent lookup for
"B" resolves to C itself and creates a ghost self-loop edge C→C whose
child does not declare its source as a parent. Second, inserting X
(parent Y) before Y leaves both resident with X declaring Y, yet no edge
Y→X exists, refuting the converse direction of the claimed "iff". -/
theorem claim_C2_counterexample :
    ¬ EdgeClaimC2 (runAdd (RollingDag.new 2) [blk "A" 0 [], blk "B" 0 [], blk "C" 0 ["B"]]) ∧
    ¬ EdgeClaimC2 (runAdd (RollingDag.new 2) [blk "X" 0 ["Y"], blk "Y" 0 []]) := by
  decide

/-- Claim C2, amended: in every reachable state all edge endpoints are
in-range node indices (no edge dangles outside the store); edges are
created only at insertion time, as exactly the pairs obtained by looking
up the inserted block's declared parents in the post-eviction index; and
inserting a block none of whose declared parents resolves in that index
(absent or evicted parents) adds no edge and does not error. After an
eviction the index may resolve a hash to the wrong surviving node
(swap-removal invalidates the last node index), so an edge may connect a
node other than the declared parent. -/
theorem claim_C2_amended :
    (∀ (C : Nat) (bs : List Block), ∀ e ∈ (runAdd (RollingDag.new C) bs).graph.edges,
      e.1 < (runAdd (RollingDag.new C) bs).graph.nodes.length ∧
      e.2 < (runAdd (RollingDag.new C) bs).graph.nodes.length) ∧
    (∀ (d : RollingDag) (b : Block), mapGet d.idx b.hash = none →
      ((addBlock d b).1).graph.edges = (evictIfFull d).graph.edges ++
        b.direct_parents.filterMap (fun p =>
          (mapGet ((b.hash, (evictIfFull d).graph.nodes.length) :: (evictIfFull d).idx) p).map
            (fun pn => (pn, (evictIfFull d).graph.nodes.length)))) ∧
    (∀ (d : RollingDag) (b : Block), mapGet d.idx b.hash = none →
      (∀ p ∈ b.direct_parents, p ≠ b.hash ∧ mapGet (evictIfFull d).idx p = none) →
      ((addBlock d b).1).graph.edges = (evictIfFull d).graph.edges) := by
  have hchar : ∀ (d : RollingDag) (b : Block), mapGet d.idx b.hash = none →
      ((addBlock d b).1).graph.edges = (evictIfFull d).graph.edges ++
        b.direct_parents.filterMap (fun p =>
          (mapGet ((b.hash, (evictIfFull d).graph.nodes.length) :: (evictIfFull d).idx) p).map
            (fun pn => (pn, (evictIfFull d).graph.nodes.length))) := by
    intro d b hnone
    have hstep : (addBlock d b).1 =
        { graph := addParentEdges ((b.hash, (evictIfFull d).graph.nodes.length) :: (evictIfFull d).idx)
            (evictIfFull d).graph.nodes.length b.direct_parents
            ⟨(evictIfFull d).graph.nodes ++ [⟨b.hash, b.blue_score, b.direct_parents, b.timestamp⟩],
             (evictIfFull d).graph.edges⟩,
          idx := (b.hash, (evictIfFull d).graph.nodes.length) :: (evictIfFull d).idx,
          order := (evictIfFull d).order ++ [b.hash], capacity := d.capacity } := by
      unfold addBlock
      simp only [hnone, Option.isSome_none, Bool.false_eq_true, if_false]
    rw [hstep]
    exact addParentEdges_edges _ _ _ _
  refine ⟨?_, hchar, ?_⟩
  · intro C bs e he
    exact (goodDag_runAdd (RollingDag.new C) bs (goodDag_new C)).2.2.2.2.2 e he
  · intro d b hnone hpar
    rw [hchar d b hnone]
    have hnil : b.direct_parents.filterMap (fun p =>
        (mapGet ((b.hash, (evictIfFull d).graph.nodes.length) :: (evictIfFull d).idx) p).map
          (fun pn => (pn, (evictIfFull d).graph.nodes.length))) = [] := by
      rw [List.filterMap_eq_nil_iff]
      intro p hp
      obtain ⟨hne, hnores⟩ := hpar p hp
      have hne' : b.hash ≠ p := fun h => hne h.symm
      rw [mapGet_cons_ne hne', hnores]
      rfl
    rw [hnil, List.append_nil]

/-- Claim C2, witness: the amended edge-creation characterization and
dangling-parent safety applied to inserting a block with a single absent
parent into an empty capacity-2 store. -/
theorem claim_C2_witness :
    mapGet (RollingDag.new 2).idx (blk "P" 5 ["Q"]).hash = none ∧
    (∀ p ∈ (blk "P" 5 ["Q"]).direct_parents,
      p ≠ (blk "P" 5 ["Q"]).hash ∧ mapGet (evictIfFull (RollingDag.new 2)).idx p = none) ∧
    ((addBlock (RollingDag.new 2) (blk "P" 5 ["Q"])).1).graph.edges =
      (evictIfFull (RollingDag.new 2)).graph.edges :=
  ⟨by decide, by decide,
    claim_C2_amended.2.2 (RollingDag.new 2) (blk "P" 5 ["Q"]) (by decide) (by decide)⟩

/-- Claim C3, code bug: the first eviction is FIFO-correct (after A, B, C
in a capacity-2 store the survivors are B and C), but the claim's "across
arbitrarily many successive evictions" part is violated by the code: on
the fourth insertion the FIFO queue pops B, yet the stale identifier→node
index (invalidated by the previous swap-removal) resolves B to the slot
holding C, so C's node is destroyed and B survives — the graph holds B and
D while the store's own FIFO queue says C and D should be resident,
contradicting `add_block`'s documented behavior of evicting the oldest
block. -/
theorem claim_C3_code_bug :
    (runAdd (RollingDag.new 2)
      [blk "A" 10 [], blk "B" 20 [], blk "C" 30 []]).graph.nodes.map BlockInfo.hash
      = ["B", "C"] ∧
    (runAdd (RollingDag.new 2)
      [blk "A" 10 [], blk "B" 20 [], blk "C" 30 [], blk "D" 40 []]).graph.nodes.map BlockInfo.hash
      = ["B", "D"] ∧
    (runAdd (RollingDag.new 2)
      [blk "A" 10 [], blk "B" 20 [], blk "C" 30 [], blk "D" 40 []]).order
      = ["C", "D"] := by
  decide

/-- Claim C4: `find_fracture` candidates are exactly the nodes with at
least two outgoing neighbors whose minimum absolute blue-score difference
to a child clears the threshold; on the capacity-3 scenario A(100),
B(150, parent A), C(400, parent A) the call with threshold 200 returns
`none` (A's minimum child delta is min(50, 300) = 50 < 200), for any
centrality assignment; and any store in which every node has fewer than
two children or a minimum delta below the threshold yields `none`. -/
theorem claim_C4 :
    (∀ bc : Nat → ℚ, findFracture dagABC.graph bc 200 = none) ∧
    (∀ (g : DagGraph) (bc : Nat → ℚ) (md i : Nat) (q : ℚ) (dl : Nat),
      (i, q, dl) ∈ candidatesList g bc md ↔
        i < g.nodes.length ∧ 2 ≤ (childrenOf g i).length ∧
        md ≤ minChildDelta g i ∧ q = bc i ∧ dl = minChildDelta g i) ∧
    (∀ (g : DagGraph) (bc : Nat → ℚ) (md : Nat),
      (∀ i, i < g.nodes.length →
        (childrenOf g i).length < 2 ∨ minChildDelta g i < md) →
      findFracture g bc md = none) := by
  refine ⟨fun bc => rfl, fun g bc md i q dl => mem_candidatesList, ?_⟩
  intro g bc md h
  apply findFracture_eq_none_of_no_candidate
  unfold candidatesList
  rw [List.filterMap_eq_nil_iff]
  intro i hi
  rcases h i (List.mem_range.mp hi) with h2 | h3
  · rw [if_pos h2]
  · by_cases h2 : (childrenOf g i).length < 2
    · rw [if_pos h2]
    · rw [if_neg h2, if_pos h3]

/-- Claim C4, witness: the absence property applied to a two-block chain
(no node has two children), and the concrete scenario instantiated with
the zero centrality assignment. -/
theorem claim_C4_witness :
    (∀ i, i < dagPQ.graph.nodes.length →
      (childrenOf dagPQ.graph i).length < 2 ∨ minChildDelta dagPQ.graph i < 7) ∧
    findFracture dagPQ.graph (fun _ => 0) 7 = none ∧
    findFracture dagABC.graph (fun _ => 0) 200 = none :=
  ⟨by decide, claim_C4.2.2 dagPQ.graph (fun _ => 0) 7 (by decide),
    claim_C4.1 (fun _ => 0)⟩

/-- Claim C5: whenever `find_fracture` returns a fracture, the returned
tip list is the full current list of the weak node's outgoing neighbors,
and the weak node is a surviving candidate whose betweenness score is
maximal among all candidates, with ties broken by the smallest minimum
child delta — for every centrality assignment, so the selection is
deterministic for a fixed graph. -/
theorem claim_C5 (g : DagGraph) (bc : Nat → ℚ) (md n : Nat)
    (tips : List Nat) (h : findFracture g bc md = some (n, tips)) :
    tips = childrenOf g n ∧
    ∃ dl, (n, bc n, dl) ∈ candidatesList g bc md ∧
      ∀ c ∈ candidatesList g bc md,
        c.2.1 ≤ bc n ∧ (c.2.1 = bc n → dl ≤ c.2.2) := by
  unfold findFracture at h
  cases hsort : stableSort cmpLe (candidatesList g bc md) with
  | nil => rw [hsort] at h; exact absurd h (by simp)
  | cons x xs =>
    rw [hsort] at h
    simp only [List.head?_cons] at h
    obtain ⟨x1, xq, xd⟩ := x
    obtain ⟨hn, htips⟩ : x1 = n ∧ childrenOf g x1 = tips := by
      have := Option.some.inj h
      exact ⟨congrArg Prod.fst this, congrArg Prod.snd this⟩
    rw [← hn, ← htips]
    have hxmem : (x1, xq, xd) ∈ candidatesList g bc md := by
      rw [← mem_stableSort cmpLe, hsort]
      exact List.mem_cons_self _ _
    have hxq : xq = bc x1 := (mem_candidatesList.mp hxmem).2.2.2.1
    refine ⟨rfl, xd, ?_, ?_⟩
    · rw [← hxq]
      exact hxmem
    · rw [← hxq]
      intro c hc
      rcases stableSort_head_min hsort c hc with rfl | hle
      · exact ⟨le_refl _, fun _ => le_refl _⟩
      · rcases (cmpLe_iff _ _).mp hle with hlt | ⟨heq, hled⟩
        · exact ⟨le_of_lt hlt, fun hceq => absurd hceq (ne_of_lt hlt)⟩
        · exact ⟨le_of_eq heq, fun _ => hled⟩

/-- Claim C5, witness: on the A, B, C scenario with threshold 10 and the
zero centrality assignment, the fracture is A with the full tip list
[B, C], and the selection properties hold there. -/
theorem claim_C5_witness :
    findFracture dagABC.graph (fun _ => (0 : ℚ)) 10 = some (0, [1, 2]) ∧
    ([1, 2] = childrenOf dagABC.graph 0 ∧
      ∃ dl, (0, (0 : ℚ), dl) ∈ candidatesList dagABC.graph (fun _ => 0) 10 ∧
        ∀ c ∈ candidatesList dagABC.graph (fun _ => 0) 10,
          c.2.1 ≤ (0 : ℚ) ∧ (c.2.1 = (0 : ℚ) → dl ≤ c.2.2)) :=
  ⟨by decide, claim_C5 dagABC.graph (fun _ => 0) 10 0 [1, 2] (by decide)⟩

/-- Claim C6, counterexample: with the adaptive flag disabled no engine is
constructed, and the orchestrator's stitch decision is `true` even for a
fracture delta of 0 against a configured base_min_delta of 1000 — the
decision is unconditionally true (`unwrap_or(true)`), not gated by the
baseline threshold or the rate-limit cooldown as claimed. -/
theorem claim_C6_counterexample :
    mkEngineOpt (fun _ => ()) cfg0 = none ∧
    mainShouldStitch (fun (_ : Unit) _ _ _ => false) (mkEngineOpt (fun _ => ()) cfg0)
      0 1 0 = true ∧
    0 < cfg0.base_min_delta := by
  decide

/-- Claim C6, amended: when the adaptive flag is disabled, no engine is
constructed, the stitch decision is unconditionally true (no delta gate
and no rate-limit gate apply), and the reward used for the broadcast
always equals base_reward_sompi. -/
theorem claim_C6_amended (E : Type) (mk : Config → E)
    (shouldF : E → Nat → ℚ → Int → Bool) (rewardF : E → ℚ → Nat)
    (cfg : Config) (hoff : cfg.adaptive = false) :
    mkEngineOpt mk cfg = none ∧
    (∀ (delta : Nat) (bps : ℚ) (now : Int),
      mainShouldStitch shouldF (mkEngineOpt mk cfg) delta bps now = true) ∧
    (∀ s : ℚ, mainReward rewardF (mkEngineOpt mk cfg) cfg s = cfg.base_reward_sompi) := by
  have hnone : mkEngineOpt mk cfg = none := by
    unfold mkEngineOpt
    rw [hoff]
    rfl
  refine ⟨hnone, ?_, ?_⟩
  · intro delta bps now
    rw [mainShouldStitch, hnone]
    rfl
  · intro s
    rw [mainReward, hnone]
    rfl

/-- Claim C6, witness: the amended behavior at the concrete disabled
configuration, for a delta of 3. -/
theorem claim_C6_witness :
    cfg0.adaptive = false ∧
    mainShouldStitch (fun (_ : Unit) _ _ _ => false) (mkEngineOpt (fun _ => ()) cfg0)
      3 1 5 = true ∧
    mainReward (fun (_ : Unit) _ => 0) (mkEngineOpt (fun _ => ()) cfg0) cfg0 1 =
      cfg0.base_reward_sompi :=
  ⟨rfl,
    (claim_C6_amended Unit (fun _ => ()) (fun _ _ _ _ => false) (fun _ _ => 0) cfg0
      (by decide)).2.1 3 1 5,
    (claim_C6_amended Unit (fun _ => ()) (fun _ _ _ _ => false) (fun _ _ => 0) cfg0
      (by decide)).2.2 1⟩

/-- Claim C7, counterexample: the orchestrator's fracture query does not
use the configured base_min_delta. With base_min_delta = 300 and a store
whose only candidate has minimum child delta 250, the actual call (which
passes the literal 200) detects a fracture while the configuration-driven
threshold would not. -/
theorem claim_C7_counterexample :
    orchestratorFractureCall cfg300 dagWXY (fun _ => 0) ≠
      findFracture dagWXY.graph (fun _ => 0) cfg300.base_min_delta := by
  decide

/-- Claim C7, amended: the minimum weight-delta threshold the orchestrator
passes to fracture detection is the hardcoded constant 200, independent of
the configuration. -/
theorem claim_C7_amended :
    ∀ (cfg cfg' : Config) (d : RollingDag) (bc : Nat → ℚ),
      orchestratorFractureCall cfg d bc = findFracture d.graph bc 200 ∧
      orchestratorFractureCall cfg d bc = orchestratorFractureCall cfg' d bc :=
  fun _ _ _ _ => ⟨rfl, rfl⟩

/-- Claim C8, counterexample: in an environment where every fetched block
already contains the expected tip-set in its parents (success at the very
first attempt) but the miner address never resolves, the monitor does not
exit at the first success: it runs all 30 attempts (not 1) and issues no
payment, refuting the claim that attempts after the successful one never
execute. -/
theorem claim_C8_counterexample :
    (["t8"].all (fun t =>
      (HealBlock.direct_parents ⟨["t8"], none⟩).contains t) = true) ∧
    healMonitor env8 ["t8"] 9 = ⟨30, [], 0, []⟩ ∧
    (healMonitor env8 ["t8"] 9).attempts ≠ 1 := by
  decide

/-- Claim C8, amended: the polling interval constant is 2 seconds and the
monitor makes at most 30 attempts with at most one payment; an attempt's
success test is exactly the expected tip-set being a subset of the fetched
block's direct parents; if no attempt is payable (fetch succeeded, tip-set
subset held, and the miner address resolved), the monitor runs all 30
attempts and pays nothing; and at the first payable attempt k it issues
exactly one payment and exits immediately (k+1 attempts in total) — but a
successful subset comparison whose address resolution fails does not stop
the loop. -/
theorem claim_C8_amended :
    HEAL_CHECK_INTERVAL_SECS = 2 ∧
    (∀ (b : HealBlock) (ts : List String),
      (ts.all (fun t => b.direct_parents.contains t) = true) ↔
        ∀ t ∈ ts, t ∈ b.direct_parents) ∧
    (∀ (env : HealEnv) (ts : List String) (reward : Nat),
      (healMonitor env ts reward).attempts ≤ 30 ∧
      (healMonitor env ts reward).payments.length ≤ 1) ∧
    (∀ (env : HealEnv) (ts : List String) (reward : Nat),
      (∀ j, j < 30 → goodAt env ts j = false) →
      healMonitor env ts reward = ⟨30, [], 0, []⟩) ∧
    (∀ (env : HealEnv) (ts : List String) (reward k : Nat) (b : HealBlock)
      (addr : String), k < 30 → env.fetch k = some b →
      ts.all (fun t => b.direct_parents.contains t) = true →
      b.minerAddr = some addr →
      (∀ j, j < k → goodAt env ts j = false) →
      (healMonitor env ts reward).attempts = k + 1 ∧
      (healMonitor env ts reward).payments = [(addr, reward)]) := by
  refine ⟨rfl, ?_, ?_, ?_, ?_⟩
  · intro b ts
    simp
  · intro env ts reward
    exact ⟨healGo_attempts_le env ts reward 30 0, healGo_payments_le env ts reward 30 0⟩
  · intro env ts reward h
    exact healGo_no_good env ts reward 30 0 (fun j _ hj2 => h j (by omega))
  · intro env ts reward k b addr hk hf hs hm hprev
    cases hsend : env.send addr reward with
    | ok txid =>
      have := healGo_first_good_ok env ts reward k b addr txid hf hs hm hsend 30 0
        (Nat.zero_le k) (by omega) (fun j _ hj2 => hprev j hj2)
      rw [healMonitor, this]
      refine ⟨?_, rfl⟩
      show k - 0 + 1 = k + 1
      omega
    | err =>
      have := healGo_first_good_err env ts reward k b addr hf hs hm hsend 30 0
        (Nat.zero_le k) (by omega) (fun j _ hj2 => hprev j hj2)
      rw [healMonitor, this]
      refine ⟨?_, rfl⟩
      show k - 0 + 1 = k + 1
      omega

/-- Claim C8, witness: the spec's end-to-end scenario — the tip-set first
appears as a subset of the fetched parents with a resolvable address on
attempt 5 of 30 (index 4): the monitor executes exactly 5 attempts and
issues exactly one payment. -/
theorem claim_C8_witness :
    (4 < 30 ∧ envW.fetch 4 = some ⟨["tw"], some "mw"⟩ ∧
      (["tw"].all (fun t =>
        (HealBlock.direct_parents ⟨["tw"], some "mw"⟩).contains t) = true) ∧
      (∀ j, j < 4 → goodAt envW ["tw"] j = false)) ∧
    (healMonitor envW ["tw"] 11).attempts = 5 ∧
    (healMonitor envW ["tw"] 11).payments = [("mw", 11)] :=
  ⟨⟨by decide, rfl, by decide, by decide⟩,
    claim_C8_amended.2.2.2.2 envW ["tw"] 11 4 ⟨["tw"], some "mw"⟩ "mw"
      (by decide) rfl (by decide) rfl (by decide)⟩

/-- Claim C9, counterexample: in an environment where every fetch returns
a block whose parents contain the expected tip-set but whose miner address
never resolves, the monitor neither logs a warning nor terminates at the
first attempt: it silently runs all 30 attempts with zero warnings —
refuting the claim that a payee-address-resolution failure is logged as a
warning and terminates the monitor without retrying. -/
theorem claim_C9_counterexample :
    (["t9"].all (fun t =>
      (HealBlock.direct_parents ⟨["t9"], none⟩).contains t) = true) ∧
    HealBlock.minerAddr ⟨["t9"], none⟩ = none ∧
    healMonitor env9 ["t9"] 3 = ⟨30, [], 0, []⟩ := by
  decide

/-- Claim C9, amended: a failure of the reward payment at the first
payable attempt is recovered locally — exactly one warning is logged and
the monitor terminates immediately with no retry and no success log; a
failure of payee-address resolution is instead silent and non-terminal
(the attempt is not payable, so the loop continues); and transient fetch
failures are skipped silently, the monitor running its full attempt budget
with no payment and no warning. -/
theorem claim_C9_amended :
    (∀ (env : HealEnv) (ts : List String) (reward k : Nat) (b : HealBlock)
      (addr : String), k < 30 → env.fetch k = some b →
      ts.all (fun t => b.direct_parents.contains t) = true →
      b.minerAddr = some addr → env.send addr reward = .err →
      (∀ j, j < k → goodAt env ts j = false) →
      healMonitor env ts reward = ⟨k + 1, [(addr, reward)], 1, []⟩) ∧
    (∀ (env : HealEnv) (ts : List String) (k : Nat) (b : HealBlock),
      env.fetch k = some b →
      ts.all (fun t => b.direct_parents.contains t) = true →
      b.minerAddr = none → goodAt env ts k = false) ∧
    (∀ (env : HealEnv) (ts : List String) (reward : Nat),
      (∀ j, j < 30 → env.fetch j = none) →
      healMonitor env ts reward = ⟨30, [], 0, []⟩) := by
  refine ⟨?_, ?_, ?_⟩
  · intro env ts reward k b addr hk hf hs hm hsend hprev
    have := healGo_first_good_err env ts reward k b addr hf hs hm hsend 30 0
      (Nat.zero_le k) (by omega) (fun j _ hj2 => hprev j hj2)
    rw [healMonitor, this]
    have hk0 : k - 0 + 1 = k + 1 := by omega
    rw [hk0]
  · intro env ts k b hf hs hm
    have hred : goodAt env ts k =
        (ts.all (fun t => b.direct_parents.contains t) && b.minerAddr.isSome) := by
      rw [goodAt, hf]
    rw [hred, hs, hm]
    rfl
  · intro env ts reward h
    apply healGo_no_good env ts reward 30 0
    intro j _ hj2
    rw [goodAt, h j (by omega)]

/-- Claim C9, witness: payment failure at the third attempt (index 2) —
the monitor stops after 3 attempts with one attempted payment, one
warning, and no success log; and the fetch-failure and resolution-failure
behaviors instantiated concretely. -/
theorem claim_C9_witness :
    (2 < 30 ∧ env9w.fetch 2 = some ⟨["t9w"], some "m9"⟩ ∧
      env9w.send "m9" 13 = .err ∧ (∀ j, j < 2 → goodAt env9w ["t9w"] j = false)) ∧
    healMonitor env9w ["t9w"] 13 = ⟨3, [("m9", 13)], 1, []⟩ ∧
    goodAt env9 ["t9"] 0 = false :=
  ⟨⟨by decide, rfl, rfl, by decide⟩,
    claim_C9_amended.1 env9w ["t9w"] 13 2 ⟨["t9w"], some "m9"⟩ "m9"
      (by decide) rfl (by decide) rfl rfl (by decide),
    claim_C9_amended.2.1 env9 ["t9"] 0 ⟨["t9"], none⟩ rfl (by decide) rfl⟩

/-- Claim C10: the weight delta the orchestrator dispatches to the
controller's sus, should_stitch and reward calls is the maximum over the
returned tips of the tip's blue score minus the weak node's blue score
with saturating subtraction (default 0); it is 0 whenever every returned
tip's blue score is at most the weak node's; and it is a different
quantity from the minimum absolute difference used by the detection
threshold — on the W(400), X(150), Y(100) store the fracture passes the
200 threshold with minimum child delta 250 while the dispatched delta
is 0. -/
theorem claim_C10 :
    (∀ (E : Type) (susF : E → Nat → ℚ → ℚ) (shouldF : E → Nat → ℚ → Int → Bool)
      (rewardF : E → ℚ → Nat) (eng : Option E) (cfg : Config) (g : DagGraph)
      (w : Nat) (tips : List Nat) (bps : ℚ) (now : Int),
      dispatchOnFracture susF shouldF rewardF eng cfg g w tips bps now =
        (mainSus susF eng (mainBlueDelta g w tips) bps,
         mainShouldStitch shouldF eng (mainBlueDelta g w tips) bps now,
         mainReward rewardF eng cfg (mainSus susF eng (mainBlueDelta g w tips) bps))) ∧
    (∀ (g : DagGraph) (w : Nat) (tips : List Nat),
      (∀ i ∈ tips, (nodeAt g i).blue_score ≤ (nodeAt g w).blue_score) →
      mainBlueDelta g w tips = 0) ∧
    (findFracture dagWXY.graph (fun _ => 0) 200 = some (0, [1, 2]) ∧
      minChildDelta dagWXY.graph 0 = 250 ∧
      mainBlueDelta dagWXY.graph 0 [1, 2] = 0) := by
  refine ⟨fun _ _ _ _ _ _ _ _ _ _ _ => rfl, ?_, by decide⟩
  intro g w tips h
  unfold mainBlueDelta
  apply max?_getD_zero
  intro x hx
  obtain ⟨i, hi, hix⟩ := List.mem_map.mp hx
  rw [← hix]
  exact Nat.sub_eq_zero_of_le (h i hi)

/-- Claim C10, witness: on the W, X, Y store both tips are lighter than
the weak node, so the dispatched delta is 0. -/
theorem claim_C10_witness :
    (∀ i ∈ [1, 2], (nodeAt dagWXY.graph i).blue_score ≤
      (nodeAt dagWXY.graph 0).blue_score) ∧
    mainBlueDelta dagWXY.graph 0 [1, 2] = 0 :=
  ⟨by decide, claim_C10.2.1 dagWXY.graph 0 [1, 2] (by decide)⟩
